import Mathlib

/-!
Verification development for the `messenger_wrapped` analysis engine
(`src/analysis/analysis.py`, `src/analysis/message_analyzer.py`).

The pandas dataframe pipeline is shallowly embedded over lists:
a dataframe is a list of rows, `groupby(k).size()` becomes "sorted distinct
keys paired with occurrence counts", `merge` becomes key lookups, pivoting
becomes explicit matrix construction, and float NaN is modelled by `Option`.
Timestamps are modelled as instants (Unix seconds, as integers): converting
an epoch value into the fixed `Australia/Sydney` zone changes only the
display offset, never the instant, so timezone conversion is the identity on
this representation and timestamp differences agree with the source's
timezone-aware arithmetic.
-/

namespace MessengerWrapped

/-! ## Generic list machinery (embedding of the implicit pandas operations) -/

/-- Lexicographic comparison of char lists by code point, mirroring how the
dataframe library compares the str keys used in groupby/sort operations. -/
def strLeAux : List Char → List Char → Bool
  | [], _ => true
  | _ :: _, [] => false
  | a :: as, b :: bs =>
    if a.toNat < b.toNat then true
    else if b.toNat < a.toNat then false
    else strLeAux as bs

/-- Code-point lexicographic order on strings. -/
def strLe (a b : String) : Bool :=
  strLeAux a.data b.data

/-- Insert an element into a sorted list (structural, hence kernel-reducible). -/
def insertSorted (le : α → α → Bool) (a : α) : List α → List α
  | [] => [a]
  | b :: l => if le a b then a :: b :: l else b :: insertSorted le a l

/-- Stable insertion sort; stands in for the sorting that pandas performs on
group keys and for sort_values. -/
def sortBy (le : α → α → Bool) (l : List α) : List α :=
  l.foldr (insertSorted le) []

theorem perm_insertSorted (le : α → α → Bool) (a : α) :
    ∀ l : List α, (insertSorted le a l).Perm (a :: l) := by
  intro l
  induction l with
  | nil => simp [insertSorted]
  | cons b l ih =>
    cases hles : le a b with
    | true => simp [insertSorted, hles]
    | false =>
      simp only [insertSorted, hles, Bool.false_eq_true, if_false]
      exact (List.Perm.cons b ih).trans (List.Perm.swap a b l)

theorem perm_sortBy (le : α → α → Bool) :
    ∀ l : List α, (sortBy le l).Perm l := by
  intro l
  induction l with
  | nil => simp [sortBy]
  | cons a l ih =>
    have h1 : (insertSorted le a (sortBy le l)).Perm (a :: sortBy le l) :=
      perm_insertSorted le a (sortBy le l)
    exact h1.trans (List.Perm.cons a ih)

theorem mem_sortBy {le : α → α → Bool} {l : List α} {x : α} :
    x ∈ sortBy le l ↔ x ∈ l :=
  (perm_sortBy le l).mem_iff

theorem pairwise_insertSorted (le : α → α → Bool)
    (htrans : ∀ a b c, le a b = true → le b c = true → le a c = true)
    (htot : ∀ a b, le a b = true ∨ le b a = true) (a : α) :
    ∀ l : List α, List.Pairwise (fun x y => le x y = true) l →
      List.Pairwise (fun x y => le x y = true) (insertSorted le a l) := by
  intro l
  induction l with
  | nil => intro _; simp [insertSorted]
  | cons b l ih =>
    intro hp
    rcases List.pairwise_cons.mp hp with ⟨hb, hl⟩
    cases hles : le a b with
    | true =>
      simp only [insertSorted, hles, if_true]
      refine List.pairwise_cons.mpr ⟨?_, hp⟩
      intro x hx
      rcases List.mem_cons.mp hx with rfl | hx
      · exact hles
      · exact htrans a b x hles (hb x hx)
    | false =>
      simp only [insertSorted, hles, Bool.false_eq_true, if_false]
      refine List.pairwise_cons.mpr ⟨?_, ih hl⟩
      intro x hx
      have hx2 := (perm_insertSorted le a l).mem_iff.mp hx
      rcases List.mem_cons.mp hx2 with rfl | hx3
      · rcases htot x b with h1 | h1
        · rw [hles] at h1; exact absurd h1 (by simp)
        · exact h1
      · exact hb x hx3

theorem pairwise_sortBy (le : α → α → Bool)
    (htrans : ∀ a b c, le a b = true → le b c = true → le a c = true)
    (htot : ∀ a b, le a b = true ∨ le b a = true) :
    ∀ l : List α, List.Pairwise (fun x y => le x y = true) (sortBy le l) := by
  intro l
  induction l with
  | nil => simp [sortBy]
  | cons a l ih => exact pairwise_insertSorted le htrans htot a (sortBy le l) ih

/-- Distinct keys in first-encounter order (what a pandas groupby computes
before sorting its keys). Structural recursion with an accumulator keeps the
definition kernel-reducible. -/
def dkAux [DecidableEq κ] (seen : List κ) : List κ → List κ
  | [] => []
  | k :: ks => if k ∈ seen then dkAux seen ks else k :: dkAux (k :: seen) ks

/-- Distinct elements of a list, keeping the first occurrence of each. -/
def distinctKeys [DecidableEq κ] (l : List κ) : List κ :=
  dkAux [] l

theorem mem_dkAux [DecidableEq κ] {x : κ} :
    ∀ (l seen : List κ), x ∈ dkAux seen l ↔ (x ∈ l ∧ x ∉ seen) := by
  intro l
  induction l with
  | nil => intro seen; simp [dkAux]
  | cons k ks ih =>
    intro seen
    by_cases h : k ∈ seen
    · rw [dkAux, if_pos h, ih seen]
      constructor
      · rintro ⟨h1, h2⟩; exact ⟨List.mem_cons_of_mem k h1, h2⟩
      · rintro ⟨h1, h2⟩
        rcases List.mem_cons.mp h1 with rfl | h3
        · exact absurd h h2
        · exact ⟨h3, h2⟩
    · rw [dkAux, if_neg h]
      constructor
      · intro h1
        rcases List.mem_cons.mp h1 with rfl | h2
        · exact ⟨List.mem_cons_self x ks, h⟩
        · rcases (ih (k :: seen)).mp h2 with ⟨h3, h4⟩
          refine ⟨List.mem_cons_of_mem k h3, fun hc => h4 (List.mem_cons_of_mem k hc)⟩
      · rintro ⟨h1, h2⟩
        rcases List.mem_cons.mp h1 with rfl | h3
        · exact List.mem_cons_self x _
        · by_cases hxk : x = k
          · subst hxk; exact List.mem_cons_self x _
          · refine List.mem_cons_of_mem k ((ih (k :: seen)).mpr ⟨h3, ?_⟩)
            intro hc
            rcases List.mem_cons.mp hc with h4 | h4
            · exact hxk h4
            · exact h2 h4

theorem nodup_dkAux [DecidableEq κ] :
    ∀ (l seen : List κ), (dkAux seen l).Nodup := by
  intro l
  induction l with
  | nil => intro seen; simp [dkAux]
  | cons k ks ih =>
    intro seen
    by_cases h : k ∈ seen
    · rw [dkAux, if_pos h]; exact ih seen
    · rw [dkAux, if_neg h]
      refine List.nodup_cons.mpr ⟨?_, ih (k :: seen)⟩
      intro hc
      exact ((mem_dkAux ks (k :: seen)).mp hc).2 (List.mem_cons_self k seen)

theorem mem_distinctKeys [DecidableEq κ] {x : κ} {l : List κ} :
    x ∈ distinctKeys l ↔ x ∈ l := by
  rw [distinctKeys, mem_dkAux]
  simp

theorem nodup_distinctKeys [DecidableEq κ] (l : List κ) :
    (distinctKeys l).Nodup :=
  nodup_dkAux l []

theorem nodup_sortBy {le : α → α → Bool} {l : List α} (h : l.Nodup) :
    (sortBy le l).Nodup :=
  (perm_sortBy le l).symm.nodup h

/-- Embedding of `df.groupby(key).size()`: the distinct keys sorted by `le`,
each paired with the number of rows carrying that key. -/
def groupSize [DecidableEq κ] (key : α → κ) (le : κ → κ → Bool) (l : List α) :
    List (κ × Nat) :=
  (sortBy le (distinctKeys (l.map key))).map
    fun k => (k, l.countP (fun a => decide (key a = k)))

/-- Embedding of `df.groupby(key)` followed by per-group aggregation: the
distinct keys sorted by `le`, each paired with the rows of its group. -/
def groupBy [DecidableEq κ] (key : α → κ) (le : κ → κ → Bool) (l : List α) :
    List (κ × List α) :=
  (sortBy le (distinctKeys (l.map key))).map
    fun k => (k, l.filter (fun a => decide (key a = k)))

theorem sum_map_add (K : List κ) (f g : κ → Nat) :
    (K.map (fun k => f k + g k)).sum = (K.map f).sum + (K.map g).sum := by
  induction K with
  | nil => simp
  | cons k K ih => simp [ih]; omega

theorem sum_map_indicator [DecidableEq κ] (K : List κ) (x : κ)
    (hnd : K.Nodup) (hx : x ∈ K) :
    (K.map (fun k => if x = k then 1 else 0)).sum = 1 := by
  induction K with
  | nil => cases hx
  | cons k K ih =>
    rcases List.nodup_cons.mp hnd with ⟨hk, hnd2⟩
    rcases List.mem_cons.mp hx with rfl | hmem
    · have hz : (K.map (fun k => if x = k then 1 else 0)).sum = 0 := by
        apply List.sum_eq_zero
        intro n hn
        rcases List.mem_map.mp hn with ⟨k2, hk2, hk3⟩
        by_cases he : x = k2
        · exact absurd (he ▸ hk2) hk
        · simp [he] at hk3; omega
      simp [hz]
    · have hne : x ≠ k := by rintro rfl; exact hk hmem
      simp [hne, ih hnd2 hmem]

/-- Partition lemma behind "the group sizes of a groupby sum to the row
count": summing, over any duplicate-free list of keys covering the rows,
the number of rows at each key gives back the total number of rows. -/
theorem length_eq_sum_countP [DecidableEq κ] (key : α → κ) (K : List κ)
    (hnd : K.Nodup) :
    ∀ l : List α, (∀ a ∈ l, key a ∈ K) →
      (K.map (fun k => l.countP (fun a => decide (key a = k)))).sum = l.length := by
  intro l
  induction l with
  | nil => intro _; simp
  | cons a l ih =>
    intro hcov
    have hcov2 : ∀ b ∈ l, key b ∈ K := fun b hb => hcov b (List.mem_cons_of_mem a hb)
    have hsplit : (K.map (fun k => (a :: l).countP (fun b => decide (key b = k)))).sum
        = (K.map (fun k => l.countP (fun b => decide (key b = k)))).sum
          + (K.map (fun k => if key a = k then 1 else 0)).sum := by
      rw [← sum_map_add]
      refine congrArg List.sum (List.map_congr_left ?_)
      intro k _
      rw [List.countP_cons]
      by_cases h : key a = k <;> simp [h]
    rw [hsplit, ih hcov2, sum_map_indicator K (key a) hnd (hcov a (List.mem_cons_self a l))]
    simp

/-! ## Data model -/

/-- Calendar date, as carried in the `date` column that the loader derives
from each timestamp. -/
structure Date where
  year : Nat
  month : Nat
  day : Nat
deriving DecidableEq, Repr

/-- Numeric encoding whose order agrees with chronological order for
calendar dates (month and day both below 100). -/
def Date.code (d : Date) : Nat :=
  d.year * 10000 + d.month * 100 + d.day

/-- Boolean chronological comparison of dates. -/
def dateLe (a b : Date) : Bool :=
  decide (a.code ≤ b.code)

/-- Gregorian leap-year test, as `datetime.date` arithmetic uses. -/
def isLeapYear (y : Nat) : Bool :=
  (y % 4 == 0 && y % 100 != 0) || y % 400 == 0

/-- Number of days in a month of a given year. -/
def daysInMonth (y m : Nat) : Nat :=
  if m == 2 then (if isLeapYear y then 29 else 28)
  else if m == 4 || m == 6 || m == 9 || m == 11 then 30
  else 31

/-- The next calendar day; `d2 = d1.next` models `(d2 - d1).days == 1` on
`datetime.date` values. -/
def Date.next (d : Date) : Date :=
  if d.day < daysInMonth d.year d.month then ⟨d.year, d.month, d.day + 1⟩
  else if d.month < 12 then ⟨d.year, d.month + 1, 1⟩
  else ⟨d.year + 1, 1, 1⟩

/-- Decimal digit character for `n % 10`. -/
def digitChar (n : Nat) : Char :=
  Char.ofNat (48 + n % 10)

/-- Two-digit zero-padded decimal rendering (for months and days). -/
def pad2 (n : Nat) : String :=
  String.mk [digitChar (n / 10), digitChar n]

/-- Four-digit zero-padded decimal rendering (for years). -/
def pad4 (n : Nat) : String :=
  String.mk [digitChar (n / 1000), digitChar (n / 100), digitChar (n / 10), digitChar n]

/-- ISO calendar-date rendering, the effect of `strftime("%Y-%m-%d")` (and of
`str()` on a `datetime.date`). -/
def Date.iso (d : Date) : String :=
  pad4 d.year ++ "-" ++ pad2 d.month ++ "-" ++ pad2 d.day

/-- A nested reaction record: the emoji symbol, the acting person, and the
reaction's recorded time (a Unix-seconds epoch value). -/
structure ReactionRec where
  reaction : String
  actor : String
  timestamp : Int
deriving DecidableEq, Repr

/-- A row of the normalized message table consumed by `MessengerAnalyzer`.
`content` and `num_words` are `Option` because the loader leaves them null
for non-text messages; `timestamp` is the instant in Unix seconds (the fixed
`Australia/Sydney` rendering offsets the display, not the instant). -/
structure Message where
  message_id : Nat
  sender_name : String
  content : Option String
  timestamp : Int
  date : Date
  hour : Nat
  num_words : Option Nat
  is_reaction : Bool
  reactions : Option (List ReactionRec)
deriving DecidableEq, Repr

/-- The analyzer's working table: `messages_df[~messages_df["is_reaction"]]`
from `MessengerAnalyzer.__init__`. -/
def filteredMessages (msgs : List Message) : List Message :=
  msgs.filter (fun m => !m.is_reaction)

/-- Total message count, `self.messages.shape[0]` in `analyze()`. -/
def num_messages (msgs : List Message) : Nat :=
  (filteredMessages msgs).length

/-! ## Shouted-word counting (`_count_shouted_words` / `is_shouting`) -/

/-- Splitting a string on whitespace runs, dropping empty pieces: the
behaviour of Python's argumentless `str.split()`. -/
def pySplitAux (cur : List Char) : List Char → List String
  | [] => if cur.isEmpty then [] else [String.mk cur.reverse]
  | c :: cs =>
    if c.isWhitespace then
      (if cur.isEmpty then pySplitAux [] cs
       else String.mk cur.reverse :: pySplitAux [] cs)
    else pySplitAux (c :: cur) cs

/-- Python `str.split()` with no arguments. -/
def pySplit (s : String) : List String :=
  pySplitAux [] s.data

/-- Python `str.isupper()`: at least one cased character, and every cased
character uppercase (uncased characters such as digits are ignored).
Cased characters are modelled as the alphabetic ones. -/
def pyIsUpper (w : String) : Bool :=
  w.data.any (fun c => c.isAlpha) && w.data.all (fun c => !c.isAlpha || c.isUpper)

/-- Embeds `is_shouting` from `message_analyzer.py`: all-caps (in the `isupper`
sense) and longer than one character. -/
def is_shouting (word : String) : Bool :=
  pyIsUpper word && decide (1 < word.length)

/-- Embeds `_count_shouted_words` / `count_shouted_words`: number of shouted words
in a message's content; null or non-string content counts zero. -/
def count_shouted_words : Option String → Nat
  | none => 0
  | some text => (pySplit text).countP is_shouting

/-- The count described by the claim's words: whitespace-separated words in
which EVERY character is uppercase and whose length exceeds 1. (Written from
the specification, for comparison with `count_shouted_words`.) -/
def claimAllCapsCount : Option String → Nat
  | none => 0
  | some text =>
    (pySplit text).countP (fun w => w.data.all Char.isUpper && decide (1 < w.length))

/-! ## Reaction extraction (`_extract_reactions`) -/

/-- One exploded reaction row, as produced by `_extract_reactions`. -/
structure ReactionRow where
  message_id : Nat
  recipient : String
  emoji : String
  reactor : String
  message_timestamp : Int
  reaction_timestamp : Int
  reaction_timedelta_sec : Int
  pair : String × String
deriving DecidableEq, Repr

/-- Python's `tuple(sorted([x, y]))` on two strings. -/
def sortPair (a b : String) : String × String :=
  if strLe a b then (a, b) else (b, a)

/-- Derivation of one exploded reaction row from its parent message and one
reaction record. `reaction_timestamp` is the record's Unix-seconds epoch
value (`pd.to_datetime(..., unit="s")` then timezone conversion, which fixes
the display zone but not the instant); `reaction_timedelta_sec` is
`(reaction_timestamp - message_timestamp).dt.seconds`, the nonnegative
seconds component of the floor-normalized timedelta. -/
def reactionRow (m : Message) (r : ReactionRec) : ReactionRow :=
  { message_id := m.message_id
    recipient := m.sender_name
    emoji := r.reaction
    reactor := r.actor
    message_timestamp := m.timestamp
    reaction_timestamp := r.timestamp
    reaction_timedelta_sec := (r.timestamp - m.timestamp) % 86400
    pair := sortPair r.actor m.sender_name }

/-- Embeds `_extract_reactions`: filter to messages with a reaction list, explode
the list, one row per reaction. -/
def extract_reactions (msgs : List Message) : List ReactionRow :=
  ((filteredMessages msgs).filter (fun m => !m.reactions.isNone)).flatMap
    (fun m => (m.reactions.getD []).map (reactionRow m))

/-! ## Pairwise reaction imbalance (`calculate_pairwise_reaction_imbalance`) -/

/-- Embeds `calculate_pairwise_reaction_imbalance`: a dataframe minus its transpose.
For a square reaction matrix whose row and column labels coincide, dataframe
subtraction aligns the labels, so the operation is entrywise over the common
label type `P`. -/
def calculate_pairwise_reaction_imbalance {P : Type} (reaction_matrix : P → P → Int) :
    P → P → Int :=
  fun i j => reaction_matrix i j - reaction_matrix j i

/-! ## Claim theorems (first group) -/

/-- C10: `calculate_pairwise_reaction_imbalance` returns the matrix minus its
transpose, so the result is antisymmetric: every diagonal entry is 0 and the
(i, j) entry is the negation of the (j, i) entry. -/
theorem c10_imbalance_antisymmetric :
    ∀ {P : Type} (M : P → P → Int) (i j : P),
      calculate_pairwise_reaction_imbalance M i i = 0 ∧
      calculate_pairwise_reaction_imbalance M i j =
        -(calculate_pairwise_reaction_imbalance M j i) := by
  intro P M i j
  unfold calculate_pairwise_reaction_imbalance
  omega

/-- C9: every exploded reaction row carries the reaction record's epoch
instant as its timestamp, and its latency is exactly the seconds component
(in 0..86399) of the timedelta between reaction and message timestamps,
days and sign discarded with no sign correction (a reaction 5 seconds before
its message yields 86395). -/
theorem c9_reaction_latency :
    ∀ (msgs : List Message) (row : ReactionRow), row ∈ extract_reactions msgs →
      (∃ m ∈ filteredMessages msgs, ∃ rs, m.reactions = some rs ∧ ∃ r ∈ rs,
          row.reaction_timestamp = r.timestamp ∧ row.message_timestamp = m.timestamp ∧
          row.recipient = m.sender_name ∧ row.reactor = r.actor)
      ∧ 0 ≤ row.reaction_timedelta_sec ∧ row.reaction_timedelta_sec ≤ 86399
      ∧ row.reaction_timedelta_sec =
          (row.reaction_timestamp - row.message_timestamp)
            - 86400 * ((row.reaction_timestamp - row.message_timestamp) / 86400)
      ∧ (row.reaction_timestamp - row.message_timestamp = -5 →
          row.reaction_timedelta_sec = 86395) := by
  intro msgs row hrow
  rcases List.mem_flatMap.mp hrow with ⟨m, hm, hrow2⟩
  rcases List.mem_filter.mp hm with ⟨hmf, hmr⟩
  have hrs : ∃ rs, m.reactions = some rs := by
    cases hmo : m.reactions with
    | none => rw [hmo] at hmr; simp [Option.isNone] at hmr
    | some rs => exact ⟨rs, rfl⟩
  rcases hrs with ⟨rs, hrs⟩
  rw [hrs] at hrow2
  simp only [Option.getD_some] at hrow2
  rcases List.mem_map.mp hrow2 with ⟨r, hr, hrw⟩
  subst hrw
  refine ⟨⟨m, hmf, rs, hrs, r, hr, rfl, rfl, rfl, rfl⟩, ?_, ?_, ?_, ?_⟩
  · exact Int.emod_nonneg _ (by norm_num)
  · have h1 : (r.timestamp - m.timestamp) % 86400 < 86400 :=
      Int.emod_lt_of_pos _ (by norm_num)
    simpa [reactionRow] using by omega
  · show (r.timestamp - m.timestamp) % 86400 = _
    simp only [reactionRow]
    rw [Int.emod_def]
  · intro hdelta
    have hd2 : r.timestamp - m.timestamp = -5 := hdelta
    show (r.timestamp - m.timestamp) % 86400 = 86395
    rw [hd2]
    decide

/-- Concrete message table exercising a reaction that arrives 5 seconds
before its parent message's timestamp. -/
def c9ex : List Message :=
  [{ message_id := 0, sender_name := "Bob", content := some "hi",
     timestamp := 100, date := ⟨2023, 1, 1⟩, hour := 0, num_words := some 1,
     is_reaction := false, reactions := some [⟨"x", "Alice", 95⟩] }]

/-- The single exploded reaction row of `c9ex`. -/
def c9row : ReactionRow :=
  { message_id := 0, recipient := "Bob", emoji := "x", reactor := "Alice",
    message_timestamp := 100, reaction_timestamp := 95,
    reaction_timedelta_sec := 86395, pair := ("Alice", "Bob") }

/-- Witness for C9: the hypothesis (row membership) holds at a concrete
input, and the theorem yields the latency facts there. -/
theorem c9_reaction_latency_witness :
    c9row ∈ extract_reactions c9ex ∧
      (0 ≤ c9row.reaction_timedelta_sec ∧ c9row.reaction_timedelta_sec ≤ 86399) :=
  ⟨by decide, ⟨(c9_reaction_latency c9ex c9row (by decide)).2.1,
    (c9_reaction_latency c9ex c9row (by decide)).2.2.1⟩⟩

/-! ## Reaction aggregation (`_analyze_reactions`) -/

/-- Value of the identity column of the per-person reaction summary. After
the outer merge, `_analyze_reactions` runs `.fillna(0)` over every column —
including the join-key column — so a person present only on the received
side has the integer `0` as identity instead of a name. `fillZero` models
that filled-in `0`. -/
inductive Ident where
  | person (name : String)
  | fillZero
deriving DecidableEq, Repr

/-- A row of the per-person reaction summary produced by
`_analyze_reactions` (columns `sender_name`, `reactions_sent`,
`reactions_received`, `reactions_receive_sent_ratio`; `none` models NaN). -/
structure ReactionStatRow where
  sender_name : Ident
  reactions_sent : Nat
  reactions_received : Nat
  reactions_receive_sent_ratio : Option ℚ
deriving DecidableEq, Repr

/-- Rounding to two decimals, the effect of `.round(2)`. -/
def round2 (q : ℚ) : ℚ :=
  ((round (q * 100) : ℤ) : ℚ) / 100

/-- Embeds `reacts_received = self.reactions.groupby("sender_name").size()` (the
`sender_name` column of the reactions table is the parent sender, i.e. the
recipient). -/
def reacts_received_tbl (msgs : List Message) : List (String × Nat) :=
  groupSize (fun r : ReactionRow => r.recipient) strLe (extract_reactions msgs)

/-- Embeds `reacts_sent = self.reactions.groupby("reactor").size()`. -/
def reacts_sent_tbl (msgs : List Message) : List (String × Nat) :=
  groupSize (fun r : ReactionRow => r.reactor) strLe (extract_reactions msgs)

/-- The outer merge of sent counts against received counts followed by
`.fillna(0)`, column drop and rename: one (identity, sent, received) triple
per person who sent at least one reaction (identity = their name, received
count looked up or filled with 0), then one triple per receive-only person —
whose missing join key the `fillna(0)` turns into the integer 0. -/
def reaction_merge (msgs : List Message) : List (Ident × Nat × Nat) :=
  (reacts_sent_tbl msgs).map (fun p =>
    match (reacts_received_tbl msgs).find? (fun q => decide (q.1 = p.1)) with
    | some q => (Ident.person p.1, p.2, q.2)
    | none => (Ident.person p.1, p.2, 0))
  ++ ((reacts_received_tbl msgs).filter
        (fun q => (reacts_sent_tbl msgs).all (fun p => !decide (p.1 = q.1)))).map
      (fun q => (Ident.fillZero, 0, q.2))

/-- Embeds `_analyze_reactions`: the merged per-person counts, with the
received/(sent+received) ratio rounded to two decimals (NaN on a 0/0,
modelled by `none`), sorted descending by reactions received. -/
def analyze_reactions (msgs : List Message) : List ReactionStatRow :=
  sortBy (fun a b => decide (b.reactions_received ≤ a.reactions_received))
    ((reaction_merge msgs).map (fun t =>
      { sender_name := t.1
        reactions_sent := t.2.1
        reactions_received := t.2.2
        reactions_receive_sent_ratio :=
          if t.2.1 + t.2.2 = 0 then none
          else some (round2 ((t.2.2 : ℚ) / ((t.2.1 : ℚ) + (t.2.2 : ℚ)))) }))

/-- Table with one message by Bob carrying one reaction by Alice: Bob
receives a reaction but never sends one. -/
def c1ex : List Message :=
  [{ message_id := 0, sender_name := "Bob", content := some "hi",
     timestamp := 0, date := ⟨2023, 1, 1⟩, hour := 0, num_words := some 1,
     is_reaction := false, reactions := some [⟨"x", "Alice", 10⟩] }]

/-- C1: evaluation of `_analyze_reactions` at `c1ex`. The claim says each
row carries the person's own name as identity; in fact the receive-only
person (Bob) appears with identity `0` — the `fillna(0)` fill value — and no
row at all carries Bob's name. Sent/received counts and the descending order
by reactions received are as claimed. -/
theorem c1_receive_only_identity_clobbered :
    ((analyze_reactions c1ex).map
        (fun r => (r.sender_name, r.reactions_sent, r.reactions_received)))
      = [(Ident.fillZero, 0, 1), (Ident.person "Alice", 1, 0)]
    ∧ (analyze_reactions c1ex).all
        (fun r => !decide (r.sender_name = Ident.person "Bob")) = true := by
  constructor
  · decide
  · decide

/-! ## Per-person statistics (`_get_person_stats`) -/

/-- A row of `message_stats`: per-sender message count, word sums and
shouting percentage (`none` models the NaN of a 0/0 float division). -/
structure MessageStatRow where
  sender_name : String
  messages_sent : Nat
  words_sent : Nat
  words_shouted : Nat
  shouting_percentage : Option ℚ
deriving DecidableEq, Repr

/-- The `message_stats` aggregation of `_get_person_stats`: group the kept
messages by sender; count rows, sum `num_words` (the float sum skips the
NaNs of null-content rows) and sum per-message shouted-word counts; then
divide for the shouting percentage. -/
def message_stats (msgs : List Message) : List MessageStatRow :=
  (groupBy (fun m => m.sender_name) strLe (filteredMessages msgs)).map
    (fun g =>
      let ws := (g.2.map (fun m => m.num_words.getD 0)).sum
      let sh := (g.2.map (fun m => count_shouted_words m.content)).sum
      { sender_name := g.1
        messages_sent := g.2.length
        words_sent := ws
        words_shouted := sh
        shouting_percentage :=
          if ws = 0 then none else some (round2 ((sh : ℚ) / (ws : ℚ) * 100)) })

/-- Does this message carry a reaction whose actor is `name`? -/
def reactedBy (m : Message) (name : String) : Bool :=
  match m.reactions with
  | some rs => rs.any (fun r => decide (r.actor = name))
  | none => false

/-- Embeds `_get_person_stats`: `message_stats.merge(reaction_stats,
on="sender_name")` — an inner join. A message-stats row survives only if the
reaction summary holds a row whose identity is that sender's own name (so
both reaction-less senders and receive-only senders, whose summary identity
was clobbered to 0, are dropped). -/
def person_stats (msgs : List Message) : List (MessageStatRow × ReactionStatRow) :=
  (message_stats msgs).filterMap (fun row =>
    ((analyze_reactions msgs).find?
        (fun r => decide (r.sender_name = Ident.person row.sender_name))).map
      (fun r => (row, r)))

theorem message_stats_sum_messages_sent (msgs : List Message) :
    ((message_stats msgs).map (fun row => row.messages_sent)).sum = num_messages msgs := by
  have h2 : (message_stats msgs).map (fun row => row.messages_sent)
      = (sortBy strLe (distinctKeys ((filteredMessages msgs).map (fun m => m.sender_name)))).map
          (fun k => (filteredMessages msgs).countP (fun a => decide (a.sender_name = k))) := by
    unfold message_stats groupBy
    rw [List.map_map, List.map_map]
    refine List.map_congr_left ?_
    intro k _
    simp [Function.comp, List.countP_eq_length_filter]
  rw [h2]
  exact length_eq_sum_countP (fun m : Message => m.sender_name) _
    (nodup_sortBy (nodup_distinctKeys _)) _
    (fun a ha => mem_sortBy.mpr (mem_distinctKeys.mpr (List.mem_map_of_mem _ ha)))

theorem filterMap_pair_sum_le (f : MessageStatRow → Option ReactionStatRow) :
    ∀ rows : List MessageStatRow,
      ((rows.filterMap (fun row => (f row).map (fun r => (row, r)))).map
          (fun p => p.1.messages_sent)).sum
        ≤ (rows.map (fun row => row.messages_sent)).sum := by
  intro rows
  induction rows with
  | nil => simp
  | cons row rows ih =>
    cases h : f row with
    | none =>
      have hcons : (row :: rows).filterMap (fun row => (f row).map (fun r => (row, r)))
          = rows.filterMap (fun row => (f row).map (fun r => (row, r))) := by
        rw [List.filterMap_cons, h]
        rfl
      rw [hcons, List.map_cons, List.sum_cons]
      exact ih.trans (Nat.le_add_left _ _)
    | some r =>
      have hcons : (row :: rows).filterMap (fun row => (f row).map (fun r => (row, r)))
          = (row, r) :: rows.filterMap (fun row => (f row).map (fun r => (row, r))) := by
        rw [List.filterMap_cons, h]
        rfl
      rw [hcons, List.map_cons, List.sum_cons, List.map_cons, List.sum_cons]
      exact Nat.add_le_add_left ih _

theorem filterMap_pair_sum_eq (f : MessageStatRow → Option ReactionStatRow) :
    ∀ rows : List MessageStatRow, (∀ row ∈ rows, (f row).isSome) →
      ((rows.filterMap (fun row => (f row).map (fun r => (row, r)))).map
          (fun p => p.1.messages_sent)).sum
        = (rows.map (fun row => row.messages_sent)).sum := by
  intro rows
  induction rows with
  | nil => intro _; simp
  | cons row rows ih =>
    intro hall
    cases h : f row with
    | none =>
      have := hall row (List.mem_cons_self row rows)
      rw [h] at this
      simp at this
    | some r =>
      have hcons : (row :: rows).filterMap (fun row => (f row).map (fun r => (row, r)))
          = (row, r) :: rows.filterMap (fun row => (f row).map (fun r => (row, r))) := by
        rw [List.filterMap_cons, h]
        rfl
      rw [hcons, List.map_cons, List.sum_cons, List.map_cons, List.sum_cons,
        ih (fun x hx => hall x (List.mem_cons_of_mem row hx))]

theorem analyze_reactions_has_sender (msgs : List Message) (k : String)
    (hk : ∃ rr ∈ extract_reactions msgs, rr.reactor = k) :
    ∃ srow ∈ analyze_reactions msgs, srow.sender_name = Ident.person k := by
  rcases hk with ⟨rr, hrr, hrk⟩
  have hk1 : k ∈ (extract_reactions msgs).map (fun r : ReactionRow => r.reactor) := by
    rcases hrk with rfl
    exact List.mem_map_of_mem _ hrr
  have hk2 : k ∈ sortBy strLe
      (distinctKeys ((extract_reactions msgs).map (fun r : ReactionRow => r.reactor))) :=
    mem_sortBy.mpr (mem_distinctKeys.mpr hk1)
  have hk3 : (k, (extract_reactions msgs).countP
      (fun r : ReactionRow => decide (r.reactor = k))) ∈ reacts_sent_tbl msgs := by
    unfold reacts_sent_tbl groupSize
    exact List.mem_map.mpr ⟨k, hk2, rfl⟩
  set p : String × Nat :=
    (k, (extract_reactions msgs).countP (fun r : ReactionRow => decide (r.reactor = k)))
  have hk4 : ∃ t ∈ reaction_merge msgs, t.1 = Ident.person k := by
    unfold reaction_merge
    cases hfind : (reacts_received_tbl msgs).find? (fun q => decide (q.1 = p.1)) with
    | none =>
      refine ⟨(Ident.person p.1, p.2, 0), List.mem_append_left _ ?_, rfl⟩
      exact List.mem_map.mpr ⟨p, hk3, by rw [hfind]⟩
    | some q =>
      refine ⟨(Ident.person p.1, p.2, q.2), List.mem_append_left _ ?_, rfl⟩
      exact List.mem_map.mpr ⟨p, hk3, by rw [hfind]⟩
  rcases hk4 with ⟨t, ht, htk⟩
  refine ⟨{ sender_name := t.1, reactions_sent := t.2.1, reactions_received := t.2.2,
            reactions_receive_sent_ratio :=
              if t.2.1 + t.2.2 = 0 then none
              else some (round2 ((t.2.2 : ℚ) / ((t.2.1 : ℚ) + (t.2.2 : ℚ)))) },
    ?_, htk⟩
  unfold analyze_reactions
  exact mem_sortBy.mpr (List.mem_map.mpr ⟨t, ht, rfl⟩)

/-- Table with a single message whose sender neither sends nor receives any
reaction: the inner join drops them from `person_stats`. -/
def c2ex : List Message :=
  [{ message_id := 0, sender_name := "B", content := some "hi",
     timestamp := 0, date := ⟨2023, 1, 1⟩, hour := 9, num_words := some 1,
     is_reaction := false, reactions := none }]

/-- C2 counterexample: on `c2ex` the per-person messages_sent column sums to
0 while the reported total is 1, so the claimed equality fails. -/
theorem c2_counterexample :
    ((person_stats c2ex).map (fun p => p.1.messages_sent)).sum ≠ num_messages c2ex := by
  decide

/-- C2 (amended): the per-person messages_sent column sums to AT MOST the
reported total (the inner join against the reaction summary can only drop
rows), with equality whenever every sender of a kept message is the actor of
at least one reaction on some kept message. -/
theorem c2_sum_messages_sent (msgs : List Message) :
    ((person_stats msgs).map (fun p => p.1.messages_sent)).sum ≤ num_messages msgs
    ∧ ((∀ m ∈ filteredMessages msgs, ∃ m2 ∈ filteredMessages msgs,
          reactedBy m2 m.sender_name = true) →
        ((person_stats msgs).map (fun p => p.1.messages_sent)).sum = num_messages msgs) := by
  constructor
  · calc ((person_stats msgs).map (fun p => p.1.messages_sent)).sum
        ≤ ((message_stats msgs).map (fun row => row.messages_sent)).sum :=
          filterMap_pair_sum_le _ _
      _ = num_messages msgs := message_stats_sum_messages_sent msgs
  · intro hyp
    rw [← message_stats_sum_messages_sent msgs]
    apply filterMap_pair_sum_eq
    intro row hrow
    rcases List.mem_map.mp hrow with ⟨g, hg, hrowg⟩
    rcases List.mem_map.mp hg with ⟨k, hkmem, hgk⟩
    have hrowname : row.sender_name = k := by rw [← hrowg, ← hgk]
    have hk1 : k ∈ (filteredMessages msgs).map (fun m => m.sender_name) :=
      mem_distinctKeys.mp (mem_sortBy.mp hkmem)
    rcases List.mem_map.mp hk1 with ⟨m, hm, hmk⟩
    rcases hyp m hm with ⟨m2, hm2, hm2r⟩
    have hrr : ∃ rr ∈ extract_reactions msgs, rr.reactor = m.sender_name := by
      unfold reactedBy at hm2r
      cases hre : m2.reactions with
      | none => rw [hre] at hm2r; simp at hm2r
      | some rs =>
        rw [hre] at hm2r
        rcases List.any_eq_true.mp hm2r with ⟨r, hrmem, hract⟩
        refine ⟨reactionRow m2 r, ?_, of_decide_eq_true hract⟩
        unfold extract_reactions
        refine List.mem_flatMap.mpr ⟨m2, List.mem_filter.mpr ⟨hm2, by simp [hre]⟩, ?_⟩
        rw [hre]
        exact List.mem_map.mpr ⟨r, hrmem, rfl⟩
    rw [hmk] at hrr
    rcases analyze_reactions_has_sender msgs k hrr with ⟨srow, hsrow, hsname⟩
    have : ((analyze_reactions msgs).find?
        (fun r => decide (r.sender_name = Ident.person row.sender_name))).isSome := by
      apply List.find?_isSome.mpr
      exact ⟨srow, hsrow, by rw [hsname, hrowname]; simp⟩
    rcases Option.isSome_iff_exists.mp this with ⟨r, hr⟩
    simp [hr]

/-- Table where the only sender self-reacts, so nobody is dropped by the
inner join. -/
def c2wex : List Message :=
  [{ message_id := 0, sender_name := "A", content := some "hi",
     timestamp := 0, date := ⟨2023, 1, 1⟩, hour := 9, num_words := some 1,
     is_reaction := false, reactions := some [⟨"x", "A", 5⟩] }]

/-- Witness for C2: on a concrete table in which every sender reacted, the
amended theorem's hypothesis is discharged and the sums agree. -/
theorem c2_sum_messages_sent_witness :
    ((person_stats c2wex).map (fun p => p.1.messages_sent)).sum = num_messages c2wex :=
  (c2_sum_messages_sent c2wex).2 (by decide)

/-! ## C8: shouted words and shouting percentage -/

/-- C8 counterexample: the claim says a word is shouted iff EVERY character
is uppercase (and length exceeds 1); the code uses Python `isupper`, which
ignores uncased characters. On the word "AB1" the code counts 1 shouted word
while the claim's rule counts 0. -/
theorem c8_counterexample :
    count_shouted_words (some "AB1") = 1 ∧ claimAllCapsCount (some "AB1") = 0 := by
  constructor
  · decide
  · decide

/-- C8 (amended): the shouted-word count equals the number of
whitespace-separated words in which every CASED (alphabetic) character is
uppercase, at least one character is cased, and the length exceeds 1
(Python `isupper` semantics); null content counts 0; "HELLO world TEST"
yields 2; and each per-sender row's shouting percentage is words shouted /
words sent × 100 rounded to two decimals (NaN — `none` — when no words were
sent). -/
theorem c8_shouted_words :
    (∀ t : String, count_shouted_words (some t) =
        (pySplit t).countP (fun w =>
          decide ((∀ c ∈ w.data, c.isAlpha = true → c.isUpper = true) ∧
                  (∃ c ∈ w.data, c.isAlpha = true) ∧ 1 < w.length)))
    ∧ count_shouted_words (some "HELLO world TEST") = 2
    ∧ count_shouted_words none = 0
    ∧ (∀ (msgs : List Message), ∀ row ∈ message_stats msgs,
        row.shouting_percentage =
          if row.words_sent = 0 then none
          else some (round2 ((row.words_shouted : ℚ) / (row.words_sent : ℚ) * 100))) := by
  refine ⟨?_, by decide, rfl, ?_⟩
  · intro t
    show (pySplit t).countP is_shouting = _
    have hpt : is_shouting = (fun w : String =>
        decide ((∀ c ∈ w.data, c.isAlpha = true → c.isUpper = true) ∧
                (∃ c ∈ w.data, c.isAlpha = true) ∧ 1 < w.length)) := by
      funext w
      apply Bool.eq_iff_iff.mpr
      simp only [is_shouting, pyIsUpper, Bool.and_eq_true, List.any_eq_true,
        List.all_eq_true, Bool.or_eq_true, Bool.not_eq_true', decide_eq_true_eq]
      constructor
      · rintro ⟨⟨⟨c, hc, hca⟩, hall⟩, hlen⟩
        refine ⟨?_, ⟨c, hc, hca⟩, hlen⟩
        intro c2 hc2 hca2
        rcases hall c2 hc2 with h | h
        · rw [hca2] at h; cases h
        · exact h
      · rintro ⟨hall, ⟨c, hc, hca⟩, hlen⟩
        refine ⟨⟨⟨c, hc, hca⟩, ?_⟩, hlen⟩
        intro c2 hc2
        by_cases h : c2.isAlpha = true
        · exact Or.inr (hall c2 hc2 h)
        · exact Or.inl (Bool.not_eq_true _ ▸ h)
    rw [hpt]
  · intro msgs row hrow
    rcases List.mem_map.mp hrow with ⟨g, _, hrowg⟩
    rw [← hrowg]

/-- Table with one null-content message, for the C8 witness. -/
def c8wex : List Message :=
  [{ message_id := 0, sender_name := "A", content := none,
     timestamp := 0, date := ⟨2023, 1, 1⟩, hour := 9, num_words := none,
     is_reaction := false, reactions := none }]

/-- Witness for C8: the row-membership hypothesis is discharged at a
concrete table (one null-content message, so no words were sent), and the
theorem yields that the shouting percentage is the NaN marker there. -/
theorem c8_shouted_words_witness :
    ({ sender_name := "A", messages_sent := 1, words_sent := 0, words_shouted := 0,
       shouting_percentage := none } : MessageStatRow) ∈ message_stats c8wex ∧
      ({ sender_name := "A", messages_sent := 1, words_sent := 0, words_shouted := 0,
         shouting_percentage := none } : MessageStatRow).shouting_percentage = none :=
  ⟨by decide, c8_shouted_words.2.2.2 c8wex _ (by decide)⟩

/-! ## Hourly activity (`_analyze_hourly_patterns`) -/

/-- Boolean order on naturals (hours). -/
def natLe (a b : Nat) : Bool :=
  decide (a ≤ b)

/-- Lexicographic boolean order on (sender, hour) group keys. -/
def shLe (a b : String × Nat) : Bool :=
  if a.1 = b.1 then decide (a.2 ≤ b.2) else strLe a.1 b.1

/-- The distinct senders, sorted — the column labels every pivot-like
reshape in the analyzer produces. -/
def sendersOf (msgs : List Message) : List String :=
  sortBy strLe (distinctKeys ((filteredMessages msgs).map (fun m => m.sender_name)))

/-- The distinct hours occurring among the kept messages, sorted ascending —
the row labels of the transposed unstack (a groupby produces only observed
keys; nothing reindexes to the full 0..23 range). -/
def hoursOf (msgs : List Message) : List Nat :=
  sortBy natLe (distinctKeys ((filteredMessages msgs).map (fun m => m.hour)))

/-- Embeds `self.messages.groupby(["sender_name", "hour"]).size()`. -/
def hourlyGroup (msgs : List Message) : List ((String × Nat) × Nat) :=
  groupSize (fun m => (m.sender_name, m.hour)) shLe (filteredMessages msgs)

/-- One cell of the unstacked (fill_value=0) and transposed hourly matrix:
the group count at (sender, hour), or 0 when that combination is absent. -/
def hourlyCell (msgs : List Message) (h : Nat) (s : String) : Nat :=
  match (hourlyGroup msgs).find? (fun p => decide (p.1 = (s, h))) with
  | some p => p.2
  | none => 0

/-- Embeds `_analyze_hourly_patterns`: one row per observed hour, holding the
per-sender counts and the appended "All" column summing across senders. -/
def analyze_hourly_patterns (msgs : List Message) : List (Nat × List Nat × Nat) :=
  (hoursOf msgs).map (fun h =>
    let row := (sendersOf msgs).map (fun s => hourlyCell msgs h s)
    (h, row, row.sum))

theorem find?_eq_self [DecidableEq κ] (k : κ) :
    ∀ K : List κ, K.find? (fun x => decide (x = k)) = if k ∈ K then some k else none := by
  intro K
  induction K with
  | nil => simp
  | cons a K ih =>
    by_cases h : a = k
    · subst h
      simp [List.find?_cons]
    · rw [List.find?_cons]
      have : (decide (a = k)) = false := by simp [h]
      rw [this, ih]
      have hne : (k ∈ a :: K) ↔ (k ∈ K) := by
        constructor
        · intro hm
          rcases List.mem_cons.mp hm with rfl | hm2
          · exact absurd rfl h
          · exact hm2
        · exact List.mem_cons_of_mem a
      by_cases hk : k ∈ K <;> simp [hk, hne]

theorem groupSize_find [DecidableEq κ] (key : α → κ) (le : κ → κ → Bool)
    (l : List α) (k : κ) :
    (groupSize key le l).find? (fun p => decide (p.1 = k))
      = if k ∈ l.map key
        then some (k, l.countP (fun a => decide (key a = k)))
        else none := by
  unfold groupSize
  rw [List.find?_map]
  have hcomp : ((fun p : κ × Nat => decide (p.1 = k)) ∘
      (fun k2 => (k2, l.countP (fun a => decide (key a = k2)))))
      = (fun x : κ => decide (x = k)) := by
    funext x
    rfl
  rw [hcomp, find?_eq_self]
  have hmem : (k ∈ sortBy le (distinctKeys (l.map key))) ↔ k ∈ l.map key := by
    rw [mem_sortBy, mem_distinctKeys]
  by_cases hk : k ∈ l.map key
  · rw [if_pos (hmem.mpr hk), if_pos hk]
    rfl
  · rw [if_neg (fun hc => hk (hmem.mp hc)), if_neg hk]
    rfl

/-- Table whose single message is at hour 5: the hourly table then has one
row, not 24. -/
def c3ex : List Message :=
  [{ message_id := 0, sender_name := "A", content := some "hi",
     timestamp := 0, date := ⟨2023, 1, 1⟩, hour := 5, num_words := some 1,
     is_reaction := false, reactions := none }]

/-- C3 counterexample: the claim says the hourly table has exactly 24 rows
regardless of which hours occur; on a table whose messages all fall in one
hour it has 1 row. -/
theorem c3_counterexample :
    ¬((analyze_hourly_patterns c3ex).length = 24) := by
  decide

/-- C3 (amended): the hourly activity table has exactly one row per hour
that occurs among the messages (ascending, no duplicates) — not a full 0..23
range; a (sender, hour) cell equals the number of messages of that sender in
that hour (0 when the combination is absent); and the added "All" entry of
each row is the sum of that row's per-sender counts. -/
theorem c3_hourly_rows (msgs : List Message) :
    ((analyze_hourly_patterns msgs).map (fun r => r.1) = hoursOf msgs)
    ∧ (hoursOf msgs).Nodup
    ∧ List.Pairwise (fun a b => a ≤ b) (hoursOf msgs)
    ∧ (∀ h, h ∈ hoursOf msgs ↔ ∃ m ∈ filteredMessages msgs, m.hour = h)
    ∧ (∀ h s, hourlyCell msgs h s =
        ((filteredMessages msgs).filter
          (fun m => decide (m.sender_name = s ∧ m.hour = h))).length)
    ∧ (∀ row ∈ analyze_hourly_patterns msgs, row.2.2 = row.2.1.sum) := by
  refine ⟨?_, nodup_sortBy (nodup_distinctKeys _), ?_, ?_, ?_, ?_⟩
  · unfold analyze_hourly_patterns
    rw [List.map_map]
    exact List.map_id _
  · have htrans : ∀ a b c : Nat, natLe a b = true → natLe b c = true → natLe a c = true := by
      intro a b c h1 h2
      simp only [natLe, decide_eq_true_eq] at h1 h2 ⊢
      omega
    have htot : ∀ a b : Nat, natLe a b = true ∨ natLe b a = true := by
      intro a b
      simp only [natLe, decide_eq_true_eq]
      omega
    exact (pairwise_sortBy natLe htrans htot _).imp (fun h => of_decide_eq_true h)
  · intro h
    rw [hoursOf, mem_sortBy, mem_distinctKeys]
    constructor
    · intro hm
      rcases List.mem_map.mp hm with ⟨m, hmm, hmh⟩
      exact ⟨m, hmm, hmh⟩
    · rintro ⟨m, hmm, hmh⟩
      exact List.mem_map.mpr ⟨m, hmm, hmh⟩
  · intro h s
    unfold hourlyCell hourlyGroup
    rw [groupSize_find]
    have hpred : (fun a : Message => decide ((a.sender_name, a.hour) = (s, h)))
        = (fun a : Message => decide (a.sender_name = s ∧ a.hour = h)) := by
      funext a
      apply Bool.eq_iff_iff.mpr
      simp [Prod.ext_iff]
    by_cases hk : (s, h) ∈ (filteredMessages msgs).map (fun m => (m.sender_name, m.hour))
    · rw [if_pos hk]
      simp only
      rw [hpred, List.countP_eq_length_filter]
    · rw [if_neg hk]
      simp only
      have : (filteredMessages msgs).countP
          (fun a => decide (a.sender_name = s ∧ a.hour = h)) = 0 := by
        rw [← hpred]
        apply List.countP_eq_zero.mpr
        intro a ha hc
        exact hk (List.mem_map.mpr ⟨a, ha, of_decide_eq_true hc⟩)
      rw [List.countP_eq_length_filter] at this
      omega
  · intro row hrow
    rcases List.mem_map.mp hrow with ⟨h, _, hr⟩
    rw [← hr]

/-- Witness for C3: the row-membership hypothesis holds at the concrete
table `c3ex`, whose single row is hour 5 with one message by A and All = 1,
and the theorem yields that All equals the row sum there. -/
theorem c3_hourly_rows_witness :
    ((5 : Nat), ([1] : List Nat), (1 : Nat)) ∈ analyze_hourly_patterns c3ex ∧
      ((5 : Nat), ([1] : List Nat), (1 : Nat)).2.2
        = ((5 : Nat), ([1] : List Nat), (1 : Nat)).2.1.sum :=
  ⟨by decide, (c3_hourly_rows c3ex).2.2.2.2.2 _ (by decide)⟩

/-! ## Word frequencies (`_get_word_counts`)

The NLTK tokenizer and its English stop-word list are external data, so the
embedding is parametrized by an arbitrary `tokenize` function and
`stop_words` list; every property below holds for all of them. -/

/-- Python `str.lower()` (character-wise case folding). -/
def lowerStr (s : String) : String :=
  String.mk (s.data.map Char.toLower)

/-- Embeds `_clean_word`: lowercase, then strip every character that is neither a
word character (alphanumeric or underscore) nor whitespace — the effect of
stripping the regex class complementary to word-and-space characters. -/
def clean_word (w : String) : String :=
  String.mk ((w.data.map Char.toLower).filter
    (fun c => c.isAlphanum || c == '_' || c.isWhitespace))

/-- Python `str.isalpha()`: nonempty and entirely alphabetic. -/
def isAlphaStr (w : String) : Bool :=
  !w.data.isEmpty && w.data.all (fun c => c.isAlpha)

/-- The filter applied to each cleaned token: truthy (nonempty), at least
the minimum length, not a stop word, and entirely alphabetic. -/
def tokenFilter (stop_words : List String) (min_word_length : Nat) (w : String) : Bool :=
  !w.data.isEmpty && decide (min_word_length ≤ w.length)
    && !stop_words.contains w && isAlphaStr w

/-- The content column the word loop iterates over. -/
def contentsOf (msgs : List Message) : List (Option String) :=
  (filteredMessages msgs).map (fun m => m.content)

/-- The flat list of surviving tokens: per string content, tokenize the
lowercased text, clean each token, and keep those passing `tokenFilter`;
non-string content contributes nothing. -/
def surviving (tokenize : String → List String) (stop_words : List String)
    (min_word_length : Nat) (contents : List (Option String)) : List String :=
  contents.foldr (fun c acc =>
    match c with
    | none => acc
    | some msg =>
      (((tokenize (lowerStr msg)).map clean_word).filter
        (tokenFilter stop_words min_word_length)) ++ acc) []

/-- Embeds `_get_word_counts`: the Counter over the surviving tokens (distinct
tokens in first-encounter order with their occurrence counts), sorted
descending by count — and, unlike the helper in `message_analyzer.py`, NOT
truncated to any top-N. -/
def get_word_counts (tokenize : String → List String) (stop_words : List String)
    (min_word_length : Nat) (msgs : List Message) : List (String × Nat) :=
  let words := surviving tokenize stop_words min_word_length (contentsOf msgs)
  sortBy (fun a b => decide (b.2 ≤ a.2))
    ((distinctKeys words).map (fun w => (w, words.countP (fun x => decide (x = w)))))

theorem surviving_mem (tokenize : String → List String) (stop_words : List String)
    (min_word_length : Nat) :
    ∀ (contents : List (Option String)) (w : String),
      w ∈ surviving tokenize stop_words min_word_length contents →
      tokenFilter stop_words min_word_length w = true := by
  intro contents
  induction contents with
  | nil => intro w hw; cases hw
  | cons c cs ih =>
    intro w hw
    cases c with
    | none => exact ih w hw
    | some msg =>
      rcases List.mem_append.mp hw with h1 | h1
      · exact (List.mem_filter.mp h1).2
      · exact ih w h1

theorem surviving_length_le (tokenize : String → List String) (stop_words : List String)
    (min_word_length : Nat) :
    ∀ contents : List (Option String),
      (surviving tokenize stop_words min_word_length contents).length
        ≤ (contents.map (fun c =>
            match c with
            | none => 0
            | some msg => (tokenize (lowerStr msg)).length)).sum := by
  intro contents
  induction contents with
  | nil => simp [surviving]
  | cons c cs ih =>
    cases c with
    | none =>
      simp only [surviving, List.foldr_cons, List.map_cons, List.sum_cons]
      exact ih.trans (Nat.le_add_left _ _)
    | some msg =>
      simp only [surviving, List.foldr_cons, List.map_cons, List.sum_cons, List.length_append]
      have h1 : ((((tokenize (lowerStr msg)).map clean_word).filter
          (tokenFilter stop_words min_word_length))).length
          ≤ (tokenize (lowerStr msg)).length := by
        calc ((((tokenize (lowerStr msg)).map clean_word).filter
            (tokenFilter stop_words min_word_length))).length
            ≤ (((tokenize (lowerStr msg)).map clean_word)).length :=
              List.length_filter_le _ _
          _ = (tokenize (lowerStr msg)).length := List.length_map _ _
      exact Nat.add_le_add h1 ih

/-- C7: for every tokenizer, stop-word list, configured minimum length and
message table, the word-frequency mapping contains no token failing the
length bound, no stop word and no non-alphabetic token; it is ordered
descending by count; it is untruncated (every surviving token appears as a
key, with its full occurrence count, and the counts sum to the number of
surviving tokens); and that sum is at most the total number of tokens the
tokenizer produced. -/
theorem c7_word_counts (tokenize : String → List String) (stop_words : List String)
    (min_word_length : Nat) (msgs : List Message) :
    (∀ p ∈ get_word_counts tokenize stop_words min_word_length msgs,
        min_word_length ≤ p.1.length ∧ stop_words.contains p.1 = false ∧
          isAlphaStr p.1 = true)
    ∧ List.Pairwise (fun a b : String × Nat => b.2 ≤ a.2)
        (get_word_counts tokenize stop_words min_word_length msgs)
    ∧ (∀ w ∈ surviving tokenize stop_words min_word_length (contentsOf msgs),
        w ∈ (get_word_counts tokenize stop_words min_word_length msgs).map (fun p => p.1))
    ∧ (∀ p ∈ get_word_counts tokenize stop_words min_word_length msgs,
        p.2 = (surviving tokenize stop_words min_word_length (contentsOf msgs)).countP
          (fun x => decide (x = p.1)))
    ∧ ((get_word_counts tokenize stop_words min_word_length msgs).map (fun p => p.2)).sum
        = (surviving tokenize stop_words min_word_length (contentsOf msgs)).length
    ∧ (surviving tokenize stop_words min_word_length (contentsOf msgs)).length
        ≤ ((contentsOf msgs).map (fun c =>
            match c with
            | none => 0
            | some msg => (tokenize (lowerStr msg)).length)).sum := by
  refine ⟨?_, ?_, ?_, ?_, ?_, surviving_length_le tokenize stop_words min_word_length _⟩
  · intro p hp
    have hp2 := mem_sortBy.mp hp
    rcases List.mem_map.mp hp2 with ⟨w, hw, hpw⟩
    have hw2 : w ∈ surviving tokenize stop_words min_word_length (contentsOf msgs) :=
      mem_distinctKeys.mp hw
    have hf := surviving_mem tokenize stop_words min_word_length _ w hw2
    simp only [tokenFilter, Bool.and_eq_true, Bool.not_eq_true', decide_eq_true_eq] at hf
    have hp1 : p.1 = w := by rw [← hpw]
    rw [hp1]
    exact ⟨hf.1.1.2, hf.1.2, hf.2⟩
  · have htrans : ∀ a b c : String × Nat,
        decide (b.2 ≤ a.2) = true → decide (c.2 ≤ b.2) = true →
          decide (c.2 ≤ a.2) = true := by
      intro a b c h1 h2
      simp only [decide_eq_true_eq] at h1 h2 ⊢
      omega
    have htot : ∀ a b : String × Nat,
        decide (b.2 ≤ a.2) = true ∨ decide (a.2 ≤ b.2) = true := by
      intro a b
      simp only [decide_eq_true_eq]
      omega
    exact (pairwise_sortBy _ htrans htot _).imp (fun h => of_decide_eq_true h)
  · intro w hw
    refine List.mem_map.mpr
      ⟨(w, (surviving tokenize stop_words min_word_length (contentsOf msgs)).countP
          (fun x => decide (x = w))), ?_, rfl⟩
    exact mem_sortBy.mpr (List.mem_map.mpr ⟨w, mem_distinctKeys.mpr hw, rfl⟩)
  · intro p hp
    have hp2 := mem_sortBy.mp hp
    rcases List.mem_map.mp hp2 with ⟨w, _, hpw⟩
    rw [← hpw]
  · have hperm : (get_word_counts tokenize stop_words min_word_length msgs).Perm
        ((distinctKeys (surviving tokenize stop_words min_word_length (contentsOf msgs))).map
          (fun w => (w, (surviving tokenize stop_words min_word_length
            (contentsOf msgs)).countP (fun x => decide (x = w))))) :=
      perm_sortBy _ _
    rw [(hperm.map (fun p : String × Nat => p.2)).sum_eq]
    rw [List.map_map]
    exact length_eq_sum_countP (fun x : String => x) _
      (nodup_distinctKeys _) _ (fun a ha => mem_distinctKeys.mpr ha)

/-- Table for the C7 witness: one message "The cat sat on the mat". -/
def c7wex : List Message :=
  [{ message_id := 0, sender_name := "A", content := some "The cat sat on the mat",
     timestamp := 0, date := ⟨2023, 1, 1⟩, hour := 9, num_words := some 6,
     is_reaction := false, reactions := none }]

/-- Witness for C7: with whitespace tokenization and the stop list ["the"],
the mapping of `c7wex` contains ("cat", 1), and the theorem yields the
length bound for it. -/
theorem c7_word_counts_witness :
    ("cat", 1) ∈ get_word_counts pySplit ["the"] 3 c7wex ∧ 3 ≤ ("cat", 1).1.length :=
  ⟨by decide, ((c7_word_counts pySplit ["the"] 3 c7wex).1 ("cat", 1) (by decide)).1⟩

/-! ## Daily activity (`_analyze_activity_patterns`)

The source groups by (date, sender), counts, then calls `.rolling(7).mean()`
directly on the grouped frame — a single window running down ALL rows of the
(date, sender)-sorted series, not one window per sender — then pivots
(dates × senders, margins, fill 0) and drops the margin row. -/

/-- Lexicographic boolean order on (date, sender) group keys. -/
def dsLe (a b : Date × String) : Bool :=
  if a.1.code = b.1.code then strLe a.2 b.2 else decide (a.1.code < b.1.code)

/-- The distinct dates of the kept messages, sorted — the pivot's row
labels. -/
def datesOf (msgs : List Message) : List Date :=
  sortBy dateLe (distinctKeys ((filteredMessages msgs).map (fun m => m.date)))

/-- Embeds `self.messages.groupby(["date", "sender_name"]).agg(num_messages=...)`:
per-(date, sender) message counts in sorted key order. -/
def groupCounts (msgs : List Message) : List ((Date × String) × Nat) :=
  groupSize (fun m => (m.date, m.sender_name)) dsLe (filteredMessages msgs)

/-- Embeds `.rolling(7).mean()` over the grouped frame as the code runs it: row i
gets the mean of rows i-6..i of the COMBINED series (mixing senders), NaN
(`none`) for the first six rows. -/
def rolling7 (g : List ((Date × String) × Nat)) : List ((Date × String) × Option ℚ) :=
  g.enum.map (fun p =>
    (p.2.1,
     if 6 ≤ p.1
     then some ((((g.drop (p.1 - 6)).take 7).map (fun q => (q.2 : ℚ))).sum / 7)
     else none))

/-- The rolling mean the claim describes: a trailing 7-point window within
each sender's own (date-ordered) series, NaN until a sender has 7 data
points. (Written from the specification, for comparison with `rolling7`.) -/
def rolling7_per_sender (g : List ((Date × String) × Nat)) :
    List ((Date × String) × Option ℚ) :=
  g.enum.map (fun p =>
    let mine := (g.take (p.1 + 1)).filter (fun q => decide (q.1.2 = p.2.1.2))
    (p.2.1,
     if 7 ≤ mine.length
     then some (((mine.drop (mine.length - 7)).map (fun q => (q.2 : ℚ))).sum / 7)
     else none))

/-- One cell of the pivoted daily table: the rolled value at (date, sender),
with NaN summed away to 0 by the pivot's sum aggregation and absent
combinations filled with 0. -/
def activityCell (msgs : List Message) (d : Date) (s : String) : ℚ :=
  match (rolling7 (groupCounts msgs)).find? (fun r => decide (r.1 = (d, s))) with
  | some r => r.2.getD 0
  | none => 0

/-- The margin ("All") column entry for a date: the pivot's sum aggregation
over all rolled values of that date (NaN skipped). -/
def activityAll (msgs : List Message) (d : Date) : ℚ :=
  (((rolling7 (groupCounts msgs)).filter (fun r => decide (r.1.1 = d))).map
    (fun r => r.2.getD 0)).sum

/-- Embeds `_analyze_activity_patterns`: the date × sender matrix with its margin
column; the appended margin ROW (the pivot's overall-total row, which sorts
last) is dropped by the trailing `.iloc[:-1, :]`, so only date rows remain. -/
def messages_by_user_by_day (msgs : List Message) : List (Date × List ℚ × ℚ) :=
  (datesOf msgs).map (fun d =>
    (d, (sendersOf msgs).map (fun s => activityCell msgs d s), activityAll msgs d))

/-- Two senders A and B, one message per (date, sender), on 2023-01-01..03
for both and 2023-01-04 for A only: seven grouped rows in total, but only
four for sender A. -/
def c4ex : List Message :=
  [{ message_id := 0, sender_name := "A", content := some "m", timestamp := 0,
     date := ⟨2023, 1, 1⟩, hour := 0, num_words := some 1, is_reaction := false,
     reactions := none },
   { message_id := 1, sender_name := "B", content := some "m", timestamp := 1,
     date := ⟨2023, 1, 1⟩, hour := 0, num_words := some 1, is_reaction := false,
     reactions := none },
   { message_id := 2, sender_name := "A", content := some "m", timestamp := 2,
     date := ⟨2023, 1, 2⟩, hour := 0, num_words := some 1, is_reaction := false,
     reactions := none },
   { message_id := 3, sender_name := "B", content := some "m", timestamp := 3,
     date := ⟨2023, 1, 2⟩, hour := 0, num_words := some 1, is_reaction := false,
     reactions := none },
   { message_id := 4, sender_name := "A", content := some "m", timestamp := 4,
     date := ⟨2023, 1, 3⟩, hour := 0, num_words := some 1, is_reaction := false,
     reactions := none },
   { message_id := 5, sender_name := "B", content := some "m", timestamp := 5,
     date := ⟨2023, 1, 3⟩, hour := 0, num_words := some 1, is_reaction := false,
     reactions := none },
   { message_id := 6, sender_name := "A", content := some "m", timestamp := 6,
     date := ⟨2023, 1, 4⟩, hour := 0, num_words := some 1, is_reaction := false,
     reactions := none }]

/-- C4: evaluation at `c4ex` of the defined/NaN profile of both rolling
means. The code's `rolling(7)` runs over the combined (date, sender)-sorted
count series, so row 7 — the (2023-01-04, A) cell — holds a DEFINED moving
average (the mean of seven counts mixing senders A and B); under the claim's
per-sender window that cell would still be NaN, since sender A has only four
data points. The two pipelines therefore disagree on this table. -/
theorem c4_rolling_mixes_senders :
    ((rolling7 (groupCounts c4ex)).map (fun r => (r.1, r.2.isSome)))
      = [((⟨2023, 1, 1⟩, "A"), false), ((⟨2023, 1, 1⟩, "B"), false),
         ((⟨2023, 1, 2⟩, "A"), false), ((⟨2023, 1, 2⟩, "B"), false),
         ((⟨2023, 1, 3⟩, "A"), false), ((⟨2023, 1, 3⟩, "B"), false),
         ((⟨2023, 1, 4⟩, "A"), true)]
    ∧ ((rolling7_per_sender (groupCounts c4ex)).map (fun r => (r.1, r.2.isSome)))
      = [((⟨2023, 1, 1⟩, "A"), false), ((⟨2023, 1, 1⟩, "B"), false),
         ((⟨2023, 1, 2⟩, "A"), false), ((⟨2023, 1, 2⟩, "B"), false),
         ((⟨2023, 1, 3⟩, "A"), false), ((⟨2023, 1, 3⟩, "B"), false),
         ((⟨2023, 1, 4⟩, "A"), false)] := by
  constructor
  · decide
  · decide

/-! ## Streak detection (`get_streak_info` and `find_longest_active_streak`)

Both detectors consume the chronologically sorted distinct message dates.
The spec side below (`runs` / `bestRun`) decomposes that list into its
maximal runs of consecutive calendar dates and picks the first run of
maximal length; each loop is then proved equal to it. -/

/-- Loop state of `get_streak_info`. -/
structure StreakState where
  max_streak : Nat
  current_streak : Nat
  max_start : Date
  max_end : Date
  start_date : Date
  prev : Date
deriving DecidableEq, Repr

/-- One iteration of the `get_streak_info` loop: extend the current streak
on a one-day gap (recording a new maximum, with its end at the current
date, as soon as the current streak exceeds it), otherwise reset. -/
def streakStep (st : StreakState) (d : Date) : StreakState :=
  if st.prev.next = d then
    if st.max_streak < st.current_streak + 1 then
      { max_streak := st.current_streak + 1, current_streak := st.current_streak + 1,
        max_start := st.start_date, max_end := d, start_date := st.start_date, prev := d }
    else { st with current_streak := st.current_streak + 1, prev := d }
  else { st with current_streak := 1, start_date := d, prev := d }

/-- Embeds `MessengerAnalyzer.get_streak_info` over the sorted distinct dates
(`none` models the IndexError on an empty date list). -/
def get_streak_info : List Date → Option (Nat × String × String)
  | [] => none
  | d :: rest =>
    let st := rest.foldl streakStep
      { max_streak := 1, current_streak := 1, max_start := d, max_end := d,
        start_date := d, prev := d }
    some (st.max_streak, st.max_start.iso, st.max_end.iso)

/-- Loop state of `find_longest_active_streak`. -/
structure FlState where
  longest_streak : Nat
  current_streak : Nat
  longest_start : Date
  longest_end : Date
  current_start : Date
  prev : Date
deriving DecidableEq, Repr

/-- One iteration of the `find_longest_active_streak` loop: extend on a
one-day gap; otherwise close the current run (recording it if strictly
longer than the best so far) and reset. -/
def flStep (st : FlState) (d : Date) : FlState :=
  if st.prev.next = d then
    { st with current_streak := st.current_streak + 1, prev := d }
  else if st.longest_streak < st.current_streak then
    { longest_streak := st.current_streak, current_streak := 1,
      longest_start := st.current_start, longest_end := st.prev,
      current_start := d, prev := d }
  else { st with current_streak := 1, current_start := d, prev := d }

/-- The trailing check of `find_longest_active_streak`, comparing the final
run against the best closed one. -/
def flFinal (st : FlState) : Nat × Date × Date :=
  if st.longest_streak < st.current_streak then
    (st.current_streak, st.current_start, st.prev)
  else (st.longest_streak, st.longest_start, st.longest_end)

/-- Embeds `find_longest_active_streak` from `message_analyzer.py`, over the sorted
distinct dates. -/
def find_longest_active_streak : List Date → Option (Nat × String × String)
  | [] => none
  | d :: rest =>
    let st := rest.foldl flStep
      { longest_streak := 1, current_streak := 1, longest_start := d,
        longest_end := d, current_start := d, prev := d }
    some ((flFinal st).1, (flFinal st).2.1.iso, (flFinal st).2.2.iso)

/-- Decomposition of a date list into its maximal runs of consecutive
calendar dates, each reported as (length, first date, last date); `start`,
`prev` and `len` describe the run under construction. (Spec-side
definition.) -/
def runsAux (start prev : Date) (len : Nat) : List Date → List (Nat × Date × Date)
  | [] => [(len, start, prev)]
  | d :: rest =>
    if prev.next = d then runsAux start d (len + 1) rest
    else (len, start, prev) :: runsAux d d 1 rest

/-- The maximal consecutive runs of a sorted distinct date list.
(Spec-side definition.) -/
def runs : List Date → List (Nat × Date × Date)
  | [] => []
  | d :: rest => runsAux d d 1 rest

/-- Fold selecting the run of maximal length, keeping the earlier run on
ties (strict comparison). (Spec-side definition.) -/
def pickBest (b : Nat × Date × Date) (rs : List (Nat × Date × Date)) :
    Nat × Date × Date :=
  rs.foldl (fun acc r => if acc.1 < r.1 then r else acc) b

/-- The first-encountered maximal run of a run list. (Spec-side
definition.) -/
def bestRun : List (Nat × Date × Date) → Option (Nat × Date × Date)
  | [] => none
  | r :: rs => some (pickBest r rs)

theorem runsAux_shape :
    ∀ (l : List Date) (start prev : Date) (len : Nat),
      ∃ L e rs, runsAux start prev len l = (L, start, e) :: rs
        ∧ len ≤ L ∧ (L = len → e = prev) := by
  intro l
  induction l with
  | nil =>
    intro start prev len
    exact ⟨len, prev, [], rfl, Nat.le_refl _, fun _ => rfl⟩
  | cons d rest ih =>
    intro start prev len
    by_cases h : prev.next = d
    · rcases ih start d (len + 1) with ⟨L, e, rs, heq, hle, _⟩
      refine ⟨L, e, rs, ?_, by omega, ?_⟩
      · rw [runsAux, if_pos h, heq]
      · intro hL
        exact absurd hL (by omega)
    · exact ⟨len, prev, runsAux d d 1 rest, by rw [runsAux, if_neg h], Nat.le_refl _,
        fun _ => rfl⟩

theorem fst_le_pickBest :
    ∀ (rs : List (Nat × Date × Date)) (b : Nat × Date × Date),
      b.1 ≤ (pickBest b rs).1 := by
  intro rs
  induction rs with
  | nil => intro b; exact Nat.le_refl _
  | cons r rs ih =>
    intro b
    show b.1 ≤ (pickBest (if b.1 < r.1 then r else b) rs).1
    by_cases h : b.1 < r.1
    · rw [if_pos h]
      exact Nat.le_trans (Nat.le_of_lt h) (ih r)
    · rw [if_neg h]
      exact ih b

theorem pickBest_seed_absorb (rs : List (Nat × Date × Date))
    (L : Nat) (sd e d : Date) (curLen maxS : Nat) (ms me : Date)
    (hL1 : curLen + 1 ≤ L) (hms : maxS = curLen) (he : L = curLen + 1 → e = d) :
    pickBest (curLen + 1, sd, d) ((L, sd, e) :: rs)
      = pickBest (maxS, ms, me) ((L, sd, e) :: rs) := by
  show pickBest (if curLen + 1 < L then (L, sd, e) else (curLen + 1, sd, d)) rs
    = pickBest (if maxS < L then (L, sd, e) else (maxS, ms, me)) rs
  have hmsL : maxS < L := by omega
  rw [if_pos hmsL]
  by_cases hlt : curLen + 1 < L
  · rw [if_pos hlt]
  · have hLeq : L = curLen + 1 := by omega
    rw [if_neg hlt, hLeq, he hLeq]

theorem foldl_streakStep_eq :
    ∀ (l : List Date) (maxS curLen : Nat) (ms me sd pv : Date),
      1 ≤ curLen → curLen ≤ maxS →
      (((l.foldl streakStep
          { max_streak := maxS, current_streak := curLen, max_start := ms,
            max_end := me, start_date := sd, prev := pv }).max_streak,
        (l.foldl streakStep
          { max_streak := maxS, current_streak := curLen, max_start := ms,
            max_end := me, start_date := sd, prev := pv }).max_start,
        (l.foldl streakStep
          { max_streak := maxS, current_streak := curLen, max_start := ms,
            max_end := me, start_date := sd, prev := pv }).max_end)
          : Nat × Date × Date)
        = pickBest (maxS, ms, me) (runsAux sd pv curLen l) := by
  intro l
  induction l with
  | nil =>
    intro maxS curLen ms me sd pv h1 h2
    show (maxS, ms, me)
      = if maxS < curLen then (curLen, sd, pv) else (maxS, ms, me)
    rw [if_neg (by omega)]
  | cons d rest ih =>
    intro maxS curLen ms me sd pv h1 h2
    by_cases h : pv.next = d
    · by_cases hlt : maxS < curLen + 1
      · have hstep : streakStep
            { max_streak := maxS, current_streak := curLen, max_start := ms,
              max_end := me, start_date := sd, prev := pv } d
            = { max_streak := curLen + 1, current_streak := curLen + 1,
                max_start := sd, max_end := d, start_date := sd, prev := d } := by
          simp [streakStep, h, hlt]
        rw [List.foldl_cons, hstep,
          ih (curLen + 1) (curLen + 1) sd d sd d (by omega) (Nat.le_refl _),
          runsAux, if_pos h]
        rcases runsAux_shape rest sd d (curLen + 1) with ⟨L, e, rs, heq, hle, himp⟩
        rw [heq]
        exact pickBest_seed_absorb rs L sd e d curLen maxS ms me hle (by omega) himp
      · have hstep : streakStep
            { max_streak := maxS, current_streak := curLen, max_start := ms,
              max_end := me, start_date := sd, prev := pv } d
            = { max_streak := maxS, current_streak := curLen + 1,
                max_start := ms, max_end := me, start_date := sd, prev := d } := by
          simp [streakStep, h, hlt]
        rw [List.foldl_cons, hstep,
          ih maxS (curLen + 1) ms me sd d (by omega) (by omega),
          runsAux, if_pos h]
    · have hstep : streakStep
          { max_streak := maxS, current_streak := curLen, max_start := ms,
            max_end := me, start_date := sd, prev := pv } d
          = { max_streak := maxS, current_streak := 1,
              max_start := ms, max_end := me, start_date := d, prev := d } := by
        simp [streakStep, h]
      rw [List.foldl_cons, hstep,
        ih maxS 1 ms me d d (Nat.le_refl _) (by omega),
        runsAux, if_neg h]
      show pickBest (maxS, ms, me) (runsAux d d 1 rest)
        = pickBest (if maxS < curLen then (curLen, sd, pv) else (maxS, ms, me))
            (runsAux d d 1 rest)
      rw [if_neg (by omega)]

theorem foldl_flStep_eq :
    ∀ (l : List Date) (longest curLen : Nat) (ls le2 cs pv : Date),
      flFinal (l.foldl flStep
          { longest_streak := longest, current_streak := curLen,
            longest_start := ls, longest_end := le2, current_start := cs, prev := pv })
        = pickBest (longest, ls, le2) (runsAux cs pv curLen l) := by
  intro l
  induction l with
  | nil =>
    intro longest curLen ls le2 cs pv
    show (if longest < curLen then (curLen, cs, pv) else (longest, ls, le2))
      = if longest < curLen then (curLen, cs, pv) else (longest, ls, le2)
    rfl
  | cons d rest ih =>
    intro longest curLen ls le2 cs pv
    by_cases h : pv.next = d
    · have hstep : flStep
          { longest_streak := longest, current_streak := curLen,
            longest_start := ls, longest_end := le2, current_start := cs, prev := pv } d
          = { longest_streak := longest, current_streak := curLen + 1,
              longest_start := ls, longest_end := le2, current_start := cs, prev := d } := by
        simp [flStep, h]
      rw [List.foldl_cons, hstep, ih, runsAux, if_pos h]
    · by_cases hlt : longest < curLen
      · have hstep : flStep
            { longest_streak := longest, current_streak := curLen,
              longest_start := ls, longest_end := le2, current_start := cs, prev := pv } d
            = { longest_streak := curLen, current_streak := 1,
                longest_start := cs, longest_end := pv, current_start := d, prev := d } := by
          simp [flStep, h, hlt]
        rw [List.foldl_cons, hstep, ih, runsAux, if_neg h]
        show pickBest (curLen, cs, pv) (runsAux d d 1 rest)
          = pickBest (if longest < curLen then (curLen, cs, pv) else (longest, ls, le2))
              (runsAux d d 1 rest)
        rw [if_pos hlt]
      · have hstep : flStep
            { longest_streak := longest, current_streak := curLen,
              longest_start := ls, longest_end := le2, current_start := cs, prev := pv } d
            = { longest_streak := longest, current_streak := 1,
                longest_start := ls, longest_end := le2, current_start := d, prev := d } := by
          simp [flStep, h, hlt]
        rw [List.foldl_cons, hstep, ih, runsAux, if_neg h]
        show pickBest (longest, ls, le2) (runsAux d d 1 rest)
          = pickBest (if longest < curLen then (curLen, cs, pv) else (longest, ls, le2))
              (runsAux d d 1 rest)
        rw [if_neg hlt]

theorem pickBest_head (rest : List Date) (d : Date) :
    ∃ L e rs, runsAux d d 1 rest = (L, d, e) :: rs
      ∧ pickBest (1, d, d) (runsAux d d 1 rest) = pickBest (L, d, e) rs := by
  rcases runsAux_shape rest d d 1 with ⟨L, e, rs, heq, hle, himp⟩
  refine ⟨L, e, rs, heq, ?_⟩
  rw [heq]
  show pickBest (if 1 < L then (L, d, e) else (1, d, d)) rs = pickBest (L, d, e) rs
  by_cases h1 : 1 < L
  · rw [if_pos h1]
  · have hL1 : L = 1 := by omega
    rw [if_neg h1, hL1, himp hL1]

theorem pickBest_first_max :
    ∀ (rs : List (Nat × Date × Date)) (x : Nat × Date × Date),
      ∃ pre suf, pre ++ pickBest x rs :: suf = x :: rs
        ∧ (∀ y ∈ pre, y.1 < (pickBest x rs).1)
        ∧ (∀ y ∈ suf, y.1 ≤ (pickBest x rs).1) := by
  intro rs
  induction rs with
  | nil =>
    intro x
    exact ⟨[], [], rfl, by simp, by simp⟩
  | cons r rs ih =>
    intro x
    have hpb : pickBest x (r :: rs) = pickBest (if x.1 < r.1 then r else x) rs := rfl
    by_cases h : x.1 < r.1
    · rw [hpb, if_pos h]
      rcases ih r with ⟨pre, suf, heq, hpre, hsuf⟩
      refine ⟨x :: pre, suf, ?_, ?_, hsuf⟩
      · rw [List.cons_append, heq]
      · intro y hy
        rcases List.mem_cons.mp hy with rfl | hy2
        · exact Nat.lt_of_lt_of_le h (fst_le_pickBest rs r)
        · exact hpre y hy2
    · rw [hpb, if_neg h]
      rcases ih x with ⟨pre, suf, heq, hpre, hsuf⟩
      cases pre with
      | nil =>
        have hx : pickBest x rs = x := by
          have hh := congrArg (fun l => l.head?) heq
          simpa using hh
        have hsuf2 : suf = rs := by
          have ht := congrArg (fun l => l.tail) heq
          simpa using ht
        refine ⟨[], r :: rs, by rw [List.nil_append, hx], by simp, ?_⟩
        intro y hy
        rcases List.mem_cons.mp hy with rfl | hy2
        · rw [hx]
          omega
        · rw [hx]
          have := hsuf y (by rw [hsuf2]; exact hy2)
          rw [hx] at this
          exact this
      | cons p pre2 =>
        have hp : p = x := by
          have hh := congrArg (fun l => l.head?) heq
          simpa using hh
        have htl : pre2 ++ pickBest x rs :: suf = rs := by
          have ht := congrArg (fun l => l.tail) heq
          simpa using ht
        refine ⟨x :: r :: pre2, suf, ?_, ?_, hsuf⟩
        · rw [List.cons_append, List.cons_append, htl]
        · intro y hy
          have hxlt : x.1 < (pickBest x rs).1 := by
            have := hpre p (List.mem_cons_self p pre2)
            rw [hp] at this
            exact this
          rcases List.mem_cons.mp hy with rfl | hy2
          · exact hxlt
          · rcases List.mem_cons.mp hy2 with rfl | hy3
            · omega
            · exact hpre y (List.mem_cons_of_mem p hy3)

/-- C6: both streak detectors return, for any nonempty sorted distinct date
list, the first-encountered maximal run of consecutive calendar dates —
its length and its inclusive start and end dates, ISO-formatted. `pickBest`
provably selects a run of maximal length whose predecessors in scan order
are all strictly shorter; the reported length is at least 1; a single date
yields (1, d, d); and the dates 2023-01-01, 2023-01-02, 2023-01-04 yield
(2, "2023-01-01", "2023-01-02"). -/
theorem c6_longest_streak :
    (∀ (d : Date) (rest : List Date),
        get_streak_info (d :: rest)
          = (bestRun (runs (d :: rest))).map (fun r => (r.1, r.2.1.iso, r.2.2.iso)))
    ∧ (∀ (d : Date) (rest : List Date),
        find_longest_active_streak (d :: rest)
          = (bestRun (runs (d :: rest))).map (fun r => (r.1, r.2.1.iso, r.2.2.iso)))
    ∧ (∀ (x : Nat × Date × Date) (rs : List (Nat × Date × Date)),
        ∃ pre suf, pre ++ pickBest x rs :: suf = x :: rs
          ∧ (∀ y ∈ pre, y.1 < (pickBest x rs).1)
          ∧ (∀ y ∈ suf, y.1 ≤ (pickBest x rs).1))
    ∧ (∀ (l : List Date) (r : Nat × Date × Date), bestRun (runs l) = some r → 1 ≤ r.1)
    ∧ (∀ d : Date, get_streak_info [d] = some (1, d.iso, d.iso))
    ∧ get_streak_info [⟨2023, 1, 1⟩, ⟨2023, 1, 2⟩, ⟨2023, 1, 4⟩]
        = some (2, "2023-01-01", "2023-01-02") := by
  refine ⟨?_, ?_, fun x rs => pickBest_first_max rs x, ?_, fun d => rfl, by decide⟩
  · intro d rest
    have hfold := foldl_streakStep_eq rest 1 1 d d d d (Nat.le_refl _) (Nat.le_refl _)
    rcases pickBest_head rest d with ⟨L, e, rs, heq, habs⟩
    have hruns : runs (d :: rest) = (L, d, e) :: rs := heq
    show some ((rest.foldl streakStep
        { max_streak := 1, current_streak := 1, max_start := d, max_end := d,
          start_date := d, prev := d }).max_streak, _, _) = _
    rw [hruns]
    have hval : ((rest.foldl streakStep
          { max_streak := 1, current_streak := 1, max_start := d, max_end := d,
            start_date := d, prev := d }).max_streak,
        (rest.foldl streakStep
          { max_streak := 1, current_streak := 1, max_start := d, max_end := d,
            start_date := d, prev := d }).max_start,
        (rest.foldl streakStep
          { max_streak := 1, current_streak := 1, max_start := d, max_end := d,
            start_date := d, prev := d }).max_end)
        = pickBest (L, d, e) rs := by
      rw [hfold, heq]
      exact habs.symm ▸ (by rw [← heq, habs])
    have h1 := congrArg (fun t : Nat × Date × Date => t.1) hval
    have h2 := congrArg (fun t : Nat × Date × Date => t.2.1) hval
    have h3 := congrArg (fun t : Nat × Date × Date => t.2.2) hval
    simp only at h1 h2 h3
    simp only [bestRun, Option.map]
    rw [h1, h2, h3]
  · intro d rest
    have hfold := foldl_flStep_eq rest 1 1 d d d d
    rcases pickBest_head rest d with ⟨L, e, rs, heq, habs⟩
    have hruns : runs (d :: rest) = (L, d, e) :: rs := heq
    have hval : flFinal (rest.foldl flStep
          { longest_streak := 1, current_streak := 1, longest_start := d,
            longest_end := d, current_start := d, prev := d })
        = pickBest (L, d, e) rs := by
      rw [hfold]
      rw [← habs, heq]
    show some ((flFinal _).1, (flFinal _).2.1.iso, (flFinal _).2.2.iso) = _
    rw [hruns]
    have h1 := congrArg (fun t : Nat × Date × Date => t.1) hval
    have h2 := congrArg (fun t : Nat × Date × Date => t.2.1) hval
    have h3 := congrArg (fun t : Nat × Date × Date => t.2.2) hval
    simp only at h1 h2 h3
    simp only [bestRun, Option.map]
    rw [h1, h2, h3]
  · intro l r hbest
    cases l with
    | nil => cases hbest
    | cons d rest =>
      rcases pickBest_head rest d with ⟨L, e, rs, heq, habs⟩
      have : bestRun (runs (d :: rest)) = some (pickBest (L, d, e) rs) := by
        show bestRun (runsAux d d 1 rest) = _
        rw [heq]
        rfl
      rw [this] at hbest
      have hr : r = pickBest (L, d, e) rs := by
        injection hbest with hh
        exact hh.symm
      rcases runsAux_shape rest d d 1 with ⟨L2, e2, rs2, heq2, hle2, _⟩
      rw [heq] at heq2
      injection heq2 with hhead htail
      have hLL : L = L2 := by
        have := congrArg (fun t : Nat × Date × Date => t.1) hhead
        simpa using this
      have hfst : (L, d, e).1 ≤ (pickBest (L, d, e) rs).1 := fst_le_pickBest rs _
      rw [hr]
      have h1L : 1 ≤ L := by omega
      exact Nat.le_trans h1L hfst

/-- Witness for C6: the equivalence and minimum-length conjuncts applied at
concrete date lists, hypotheses discharged there. -/
theorem c6_longest_streak_witness :
    get_streak_info [⟨2023, 5, 5⟩, ⟨2023, 5, 6⟩]
        = (bestRun (runs [⟨2023, 5, 5⟩, ⟨2023, 5, 6⟩])).map
            (fun r => (r.1, r.2.1.iso, r.2.2.iso))
      ∧ (bestRun (runs [⟨2023, 5, 5⟩]) = some (1, ⟨2023, 5, 5⟩, ⟨2023, 5, 5⟩)
          ∧ 1 ≤ ((1 : Nat), (⟨2023, 5, 5⟩ : Date), (⟨2023, 5, 5⟩ : Date)).1) :=
  ⟨c6_longest_streak.1 ⟨2023, 5, 5⟩ [⟨2023, 5, 6⟩],
    ⟨by decide, c6_longest_streak.2.2.2.1 [⟨2023, 5, 5⟩] _ (by decide)⟩⟩

end MessengerWrapped
